import Mathlib

/-!
Verification of `git_commit_graph.py` (git commit graph generator).

The script collects, per branch, the commits authored on or after a cutoff
date, then renders a timeline image, a branch/commit network image, and a
JSON summary.  We embed the data model and the pure content of each stage:

* `get_all_commits_from_date` — the Collector (branch enumeration, per-branch
  history traversal, skipping of empty branches and broken refs);
* `create_summary_stats` — the Summarizer (totals and per-branch aggregates);
* `create_commit_network_graph` — the graph the Network renderer builds
  (networkx `DiGraph`: node keys are unique, re-adding a node overwrites its
  attributes, re-adding an edge is a no-op);
* `main_run` — the control flow of `main` (fatal date/repository errors,
  benign empty result, the three generated files).

Timestamps are epoch seconds as natural numbers; calendar days are modelled
as `ts / 86400` (UTC day index).  Image drawing, argument parsing and file
I/O are out of scope; only the data each stage computes is embedded.
-/

namespace GitCommitGraph

/-- A git commit as used by the script: `hexsha`, `author.name`,
`authored_date` (epoch seconds) and `message`. -/
structure Commit where
  hexsha : String
  authorName : String
  authoredDate : Nat
  message : String
deriving DecidableEq

/-- A local branch (`repo.branches` entry); only its name is used. -/
structure LocalBranch where
  name : String
deriving DecidableEq

/-- A remote (`repo.remotes` entry): its name and the full names of its
refs (e.g. `origin/main`). -/
structure Remote where
  name : String
  refs : List String
deriving DecidableEq

/-- A git repository as the script sees it: local branches, remotes, and a
rev-resolution map.  `history rev` is the full commit history (newest first)
reachable from `rev`; `none` models a `GitCommandError` for that rev
(stale or unreachable ref). -/
structure Repo where
  localBranches : List LocalBranch
  remotes : List Remote
  history : String → Option (List Commit)

/-- Seconds per day; used to compare timestamps at calendar-day
granularity. -/
def secondsPerDay : Nat := 86400

/-- UTC calendar day index of an epoch-seconds timestamp. -/
def dayOf (ts : Nat) : Nat := ts / secondsPerDay

/-- Python `s.split('/')[-1]`: the last `/`-separated component. -/
def lastComponent (s : String) : String :=
  (s.splitOn "/").getLastD ""

/-- Display name of a remote ref: `f"{remote.name}/{ref.name.split('/')[-1]}"`. -/
def displayName (r : Remote) (refName : String) : String :=
  r.name ++ "/" ++ lastComponent refName

/-- One step of the remote-branch loop: append the derived display name
unless it is already present (`if branch_name not in branches`). -/
def addRef (acc : List String) (r : Remote) (refName : String) : List String :=
  let n := displayName r refName
  if n ∈ acc then acc else acc ++ [n]

/-- Process all refs of one remote. -/
def addRemote (acc : List String) (r : Remote) : List String :=
  r.refs.foldl (fun a refName => addRef a r refName) acc

/-- The `branches` list built by `get_all_commits_from_date`: local branch
names first, then remote display names with the duplicate check. -/
def collectBranchNames (repo : Repo) : List String :=
  repo.remotes.foldl addRemote (repo.localBranches.map LocalBranch.name)

/-- Modelled from the spec: `repo.iter_commits(branch, since=...)` is the
external GitPython/git traversal, not code of this repository.  Per the
spec it yields the branch's history filtered to commits authored on or
after the cutoff at calendar-day granularity (the script passes
`since_date.strftime('%Y-%m-%d')`, a day-resolution string), newest first,
and fails (`none`) exactly when the rev cannot be traversed. -/
def iterCommitsSince (repo : Repo) (rev : String) (sinceDay : Nat) :
    Option (List Commit) :=
  (repo.history rev).map (fun cs =>
    cs.filter (fun c => sinceDay ≤ dayOf c.authoredDate))

/-- Python dict assignment `m[k] = v`: replace the value of an existing key
in place, otherwise append the new binding. -/
def dictSet {α : Type} : List (String × α) → String → α → List (String × α)
  | [], k, v => [(k, v)]
  | (k', v') :: rest, k, v =>
      if k' = k then (k', v) :: rest else (k', v') :: dictSet rest k v

/-- The Collector (`get_all_commits_from_date` minus the fatal
invalid-repository check, handled in `main_run` / `collectChecked`):
for each branch name, traverse its history since the cutoff day; skip the
branch on traversal failure, and record it only when the commit list is
non-empty (`if commits:`). -/
def get_all_commits_from_date (repo : Repo) (sinceDay : Nat) :
    List (String × List Commit) :=
  (collectBranchNames repo).foldl
    (fun acc b =>
      match iterCommitsSince repo b sinceDay with
      | none => acc
      | some cs => if cs.isEmpty then acc else dictSet acc b cs)
    []

/-- Per-branch entry of `branch_stats` in `commit_summary.json`. -/
structure BranchStat where
  commit_count : Nat
  unique_authors : Nat
  authors : List String
  latest_commit : Nat
  oldest_commit : Nat
deriving DecidableEq

/-- The summary record written by `create_summary_stats`. -/
structure Summary where
  total_branches : Nat
  total_commits : Nat
  branch_stats : List (String × BranchStat)
deriving DecidableEq

/-- Placeholder commit for the (unreachable) `if commits else None` arms of
`latest_commit` / `oldest_commit`: inside the `if commits:` guard the list
is never empty. -/
def defaultCommit : Commit :=
  { hexsha := "", authorName := "", authoredDate := 0, message := "" }

/-- The Summarizer (`create_summary_stats`): totals over the whole
collection and, for each branch with a non-empty commit list, commit count,
deduplicated author names (`list(set(...))`, modelled by `List.dedup` —
the set order is unspecified), and the authored dates of the first and last
listed commits. -/
def create_summary_stats (ac : List (String × List Commit)) : Summary :=
  { total_branches := ac.length
    total_commits := (ac.map (fun p => p.2.length)).sum
    branch_stats := ac.filterMap (fun p =>
      if p.2.isEmpty then none
      else
        let authors := (p.2.map Commit.authorName).dedup
        some (p.1,
          { commit_count := p.2.length
            unique_authors := authors.length
            authors := authors
            latest_commit := (p.2.headD defaultCommit).authoredDate
            oldest_commit := (p.2.getLastD defaultCommit).authoredDate })) }

/-- Node classification attribute (`node_type='branch'` / `'commit'`). -/
inductive NodeType where
  | branch
  | commit
deriving DecidableEq

/-- The networkx `DiGraph` built by `create_commit_network_graph`, reduced
to what the claims use: nodes as an insertion-ordered association list from
key to the current value of the `node_type` attribute (`none` for a node
created without it), and the insertion-ordered edge list.  The other node
attributes the script sets (`commit_count`, `author`, `date`, `message`)
decide nothing downstream and are not modelled. -/
structure NGraph where
  nodes : List (String × Option NodeType)
  edges : List (String × String)
deriving DecidableEq

/-- The empty `DiGraph`. -/
def emptyGraph : NGraph := { nodes := [], edges := [] }

/-- `G.add_node(k, node_type=t, ...)` on the node list: overwrite the
attribute of an existing key (networkx updates attributes of an existing
node), otherwise append the node. -/
def setNodeType : List (String × Option NodeType) → String → NodeType →
    List (String × Option NodeType)
  | [], k, t => [(k, some t)]
  | (k', t') :: rest, k, t =>
      if k' = k then (k', some t) :: rest else (k', t') :: setNodeType rest k t

/-- `G.add_node(k, node_type=t, ...)`. -/
def addNode (g : NGraph) (k : String) (t : NodeType) : NGraph :=
  { g with nodes := setNodeType g.nodes k t }

/-- networkx `add_edge` creates missing endpoints with no attributes; an
existing node is left untouched. -/
def ensureNode (g : NGraph) (k : String) : NGraph :=
  if g.nodes.any (fun p => p.1 = k) then g
  else { g with nodes := g.nodes ++ [(k, none)] }

/-- `G.add_edge(a, b)`: ensure both endpoints exist, then add the edge
unless it is already present (a `DiGraph` has no parallel edges). -/
def addEdge (g : NGraph) (a b : String) : NGraph :=
  let g1 := ensureNode (ensureNode g a) b
  if (a, b) ∈ g1.edges then g1 else { g1 with edges := g1.edges ++ [(a, b)] }

/-- The loop body of `create_commit_network_graph` for one branch: add the
branch node, then for each of the first 10 commits (`commits[:10]`) add a
commit node keyed by `commit.hexsha[:8]` and an edge from the branch to
it. -/
def addBranchEntry (g : NGraph) (b : String) (cs : List Commit) : NGraph :=
  (cs.take 10).foldl
    (fun g c =>
      let cid := c.hexsha.take 8
      addEdge (addNode g cid NodeType.commit) b cid)
    (addNode g b NodeType.branch)

/-- The graph built by `create_commit_network_graph` from the Branch
collection. -/
def create_commit_network_graph (ac : List (String × List Commit)) : NGraph :=
  ac.foldl (fun g p => addBranchEntry g p.1 p.2) emptyGraph

/-- The commit nodes of the drawn graph: the keys whose final `node_type`
attribute is `'commit'` (the classification at lines 180-182 of the
script). -/
def commitNodes (g : NGraph) : List String :=
  (g.nodes.filter (fun p => p.2 = some NodeType.commit)).map Prod.fst

/-- The branch nodes of the drawn graph (`node_type == 'branch'`). -/
def branchNodes (g : NGraph) : List String :=
  (g.nodes.filter (fun p => p.2 = some NodeType.branch)).map Prod.fst

/-- The 8-character hash keys of the capped commits (first 10 per branch),
in traversal order, duplicates included. -/
def cappedHashKeys (ac : List (String × List Commit)) : List String :=
  ac.flatMap (fun p => (p.2.take 10).map (fun c => c.hexsha.take 8))

/-- The Collector as called by `main`: opening an invalid repository raises
`InvalidGitRepositoryError`, which `get_all_commits_from_date` turns into
`sys.exit(1)` before any branch is enumerated; `none` models that exit. -/
def collectChecked (repoAt : Option Repo) (sinceDay : Nat) :
    Option (List (String × List Commit)) :=
  repoAt.map (fun repo => get_all_commits_from_date repo sinceDay)

/-- Outcome of one run of `main`. -/
inductive MainResult where
  /-- `datetime.strptime` raised `ValueError`: `sys.exit(1)`. -/
  | fatalBadDate
  /-- the repository path is not a valid repository: `sys.exit(1)`. -/
  | fatalBadRepo
  /-- empty collection: informational message, early `return`. -/
  | emptyNoOutputs
  /-- non-empty collection: the three output files are generated. -/
  | success (ac : List (String × List Commit))
deriving DecidableEq

/-- The control flow of `main`: parse the `--since` date (fatal on bad
format, before the repository is touched), collect (fatal inside the
Collector on an invalid repository), return early on an empty collection,
otherwise generate the three outputs. -/
def main_run (repoAt : Option Repo) (sinceDay? : Option Nat) : MainResult :=
  match sinceDay? with
  | none => MainResult.fatalBadDate
  | some d =>
      match collectChecked repoAt d with
      | none => MainResult.fatalBadRepo
      | some ac =>
          if ac.isEmpty then MainResult.emptyNoOutputs
          else MainResult.success ac

/-- Process exit code of a run. -/
def exitCodeOf : MainResult → Nat
  | MainResult.fatalBadDate => 1
  | MainResult.fatalBadRepo => 1
  | MainResult.emptyNoOutputs => 0
  | MainResult.success _ => 0

/-- Output files a run creates (all three are written only on the success
path of `main`). -/
def filesCreated : MainResult → List String
  | MainResult.success _ =>
      ["commit_timeline.png", "commit_network.png", "commit_summary.json"]
  | _ => []

/-- The informational message printed on the benign empty result. -/
def emptyResultMessage : String := "No commits found in the specified time range"

/-- The informational (non-error) message of a run, when one is printed
instead of generating output. -/
def infoMessageOf : MainResult → Option String
  | MainResult.emptyNoOutputs => some emptyResultMessage
  | _ => none

/-! Concrete repositories and collections used to exercise the theorems on
closed inputs. -/

/-- A commit authored a few seconds into day 20000. -/
def wCommit : Commit :=
  { hexsha := "aabbccdd0011", authorName := "Ann",
    authoredDate := 86400 * 20000 + 5, message := "m" }

/-- A one-branch repository whose only commit is `wCommit`. -/
def wRepo : Repo :=
  { localBranches := [{ name := "main" }], remotes := [],
    history := fun rev => if rev = "main" then some [wCommit] else none }

/-- A repository with no branches at all. -/
def wEmptyRepo : Repo :=
  { localBranches := [], remotes := [], history := fun _ => none }

/-- A repository with one local branch and one remote carrying two refs. -/
def w3Repo : Repo :=
  { localBranches := [{ name := "main" }],
    remotes := [{ name := "origin", refs := ["origin/dev", "origin/main"] }],
    history := fun _ => none }

/-- The `branch_stats` entry the Summarizer produces for `wRepo`. -/
def wStat : BranchStat :=
  { commit_count := 1, unique_authors := 1, authors := ["Ann"],
    latest_commit := 86400 * 20000 + 5, oldest_commit := 86400 * 20000 + 5 }

/-- A commit whose 8-character hash key is `aaaabbbb`. -/
def cA : Commit :=
  { hexsha := "aaaabbbb1111", authorName := "A", authoredDate := 100, message := "x" }

/-- A commit whose 8-character hash key is `ccccdddd`. -/
def cB : Commit :=
  { hexsha := "ccccdddd2222", authorName := "B", authoredDate := 200, message := "y" }

/-- A Branch collection in which the second branch's name `aaaabbbb`
collides with the 8-character hash key of the first branch's commit. -/
def collisionAC : List (String × List Commit) :=
  [("b1", [cA]), ("aaaabbbb", [cB])]

/-- A collision-free two-branch collection. -/
def plainAC : List (String × List Commit) :=
  [("main", [cA]), ("dev", [cB])]

/-! ## Theorems -/

/-- C4: `total_commits` equals the sum of `commit_count` over all
`branch_stats` entries, and `total_branches` equals the number of branches
in the collection. -/
theorem summary_totals (ac : List (String × List Commit)) :
    (create_summary_stats ac).total_commits =
      (((create_summary_stats ac).branch_stats).map
        (fun q => q.2.commit_count)).sum ∧
    (create_summary_stats ac).total_branches = ac.length := by
  refine ⟨?_, rfl⟩
  simp only [create_summary_stats]
  induction ac with
  | nil => simp
  | cons p rest ih =>
    simp only [List.map_cons, List.sum_cons, List.filterMap_cons]
    by_cases h : p.2.isEmpty
    · have : p.2 = [] := by simpa [List.isEmpty_iff] using h
      simp [h, this, ih]
    · simp [h, ih]

/-- C8: when the Branch collection is empty, the run reports the
informational message, skips all three generation steps (no files are
created) and exits with code 0. -/
theorem empty_collection_skips_all (repo : Repo) (d : Nat)
    (h : get_all_commits_from_date repo d = []) :
    main_run (some repo) (some d) = MainResult.emptyNoOutputs ∧
    exitCodeOf (main_run (some repo) (some d)) = 0 ∧
    filesCreated (main_run (some repo) (some d)) = [] ∧
    infoMessageOf (main_run (some repo) (some d)) = some emptyResultMessage := by
  simp [main_run, collectChecked, h, exitCodeOf, filesCreated, infoMessageOf]

/-- Witness for C8: the branchless repository yields an empty collection,
a clean exit and no output files. -/
theorem empty_collection_skips_all_witness :
    main_run (some wEmptyRepo) (some 0) = MainResult.emptyNoOutputs ∧
    exitCodeOf (main_run (some wEmptyRepo) (some 0)) = 0 ∧
    filesCreated (main_run (some wEmptyRepo) (some 0)) = [] ∧
    infoMessageOf (main_run (some wEmptyRepo) (some 0)) =
      some emptyResultMessage :=
  empty_collection_skips_all wEmptyRepo 0 rfl

/-- C9: an invalid `--since` date is fatal (exit code 1, no output files)
before the repository is even opened, and an invalid repository path is
fatal (exit code 1, no output files) before any collection output exists. -/
theorem invalid_inputs_fatal (repoAt : Option Repo) (d : Nat) :
    main_run repoAt none = MainResult.fatalBadDate ∧
    exitCodeOf (main_run repoAt none) = 1 ∧
    filesCreated (main_run repoAt none) = [] ∧
    main_run none (some d) = MainResult.fatalBadRepo ∧
    exitCodeOf (main_run none (some d)) = 1 ∧
    filesCreated (main_run none (some d)) = [] :=
  ⟨rfl, rfl, rfl, rfl, rfl, rfl⟩

/-- Pairs of a dict after an assignment: an old binding (of another key) or
the new one. -/
theorem mem_dictSet {α : Type} {m : List (String × α)} {k : String} {v : α}
    {p : String × α} (h : p ∈ dictSet m k v) : p ∈ m ∨ p = (k, v) := by
  induction m with
  | nil =>
    simp only [dictSet, List.mem_singleton] at h
    exact Or.inr h
  | cons q rest ih =>
    obtain ⟨k', v'⟩ := q
    by_cases hk : k' = k
    · rw [show dictSet ((k', v') :: rest) k v = (k', v) :: rest from by
        simp [dictSet, hk]] at h
      rcases List.mem_cons.mp h with h | h
      · exact Or.inr (by rw [h, hk])
      · exact Or.inl (List.mem_cons_of_mem _ h)
    · rw [show dictSet ((k', v') :: rest) k v = (k', v') :: dictSet rest k v from by
        simp [dictSet, hk]] at h
      rcases List.mem_cons.mp h with h | h
      · exact Or.inl (by simp [h])
      · rcases ih h with h' | h'
        · exact Or.inl (List.mem_cons_of_mem _ h')
        · exact Or.inr h'

/-- Every pair in the Collector's fold state is either inherited from the
initial state or a branch/commit-list pair produced by a successful,
non-empty traversal. -/
theorem collector_fold_mem {repo : Repo} {d : Nat} {names : List String}
    {acc : List (String × List Commit)} {p : String × List Commit}
    (h : p ∈ names.foldl
      (fun acc b =>
        match iterCommitsSince repo b d with
        | none => acc
        | some cs => if cs.isEmpty then acc else dictSet acc b cs)
      acc) :
    p ∈ acc ∨
      ∃ b cs, iterCommitsSince repo b d = some cs ∧ cs.isEmpty = false ∧
        p = (b, cs) := by
  induction names generalizing acc with
  | nil => exact Or.inl h
  | cons n ns ih =>
    simp only [List.foldl_cons] at h
    rcases ih h with hmem | hnew
    · cases hiter : iterCommitsSince repo n d with
      | none => rw [hiter] at hmem; exact Or.inl hmem
      | some cs =>
        rw [hiter] at hmem
        have hmem' : p ∈ if cs.isEmpty then acc else dictSet acc n cs := hmem
        by_cases he : cs.isEmpty
        · rw [if_pos he] at hmem'
          exact Or.inl hmem'
        · rw [if_neg he] at hmem'
          rcases mem_dictSet hmem' with h' | h'
          · exact Or.inl h'
          · exact Or.inr ⟨n, cs, hiter, by simpa using he, h'⟩
    · exact Or.inr hnew

/-- C1: every commit the Collector places in the Branch collection for any
branch has an authored date on or after the cutoff, at calendar-day
granularity (commits authored on the cutoff day itself pass the filter). -/
theorem collector_cutoff_day (repo : Repo) (d : Nat) (b : String)
    (cs : List Commit) (hb : (b, cs) ∈ get_all_commits_from_date repo d)
    (c : Commit) (hc : c ∈ cs) : d ≤ dayOf c.authoredDate := by
  rcases collector_fold_mem (p := (b, cs)) hb with habs | ⟨b', cs', hiter, _, heq⟩
  · simp at habs
  · obtain ⟨rfl, rfl⟩ : b = b' ∧ cs = cs' :=
      ⟨congrArg Prod.fst heq, congrArg Prod.snd heq⟩
    simp only [iterCommitsSince] at hiter
    rcases Option.map_eq_some'.mp hiter with ⟨full, _, hfull⟩
    rw [← hfull] at hc
    simpa using (List.mem_filter.mp hc).2

/-- Witness for C1 on the one-commit repository `wRepo`. -/
theorem collector_cutoff_day_witness : 19999 ≤ dayOf wCommit.authoredDate :=
  collector_cutoff_day wRepo 19999 "main" [wCommit] (by decide) wCommit
    (by decide)

/-- C2: a branch name is a key of the Branch collection only with a
non-empty list of qualifying commits, and a branch absent from the
collection is also absent from `branch_stats`. -/
theorem branch_presence (repo : Repo) (d : Nat) :
    (∀ q ∈ get_all_commits_from_date repo d, q.2 ≠ []) ∧
    ∀ b : String, b ∉ (get_all_commits_from_date repo d).map Prod.fst →
      b ∉ ((create_summary_stats
        (get_all_commits_from_date repo d)).branch_stats).map Prod.fst := by
  constructor
  · intro q hq
    rcases collector_fold_mem hq with habs | ⟨b', cs', _, hne, heq⟩
    · simp at habs
    · rw [heq]
      simpa [List.isEmpty_iff] using hne
  · intro b hb hmem
    apply hb
    simp only [create_summary_stats, List.mem_map] at hmem ⊢
    obtain ⟨⟨b2, st⟩, hmem2, hfst⟩ := hmem
    rw [List.mem_filterMap] at hmem2
    obtain ⟨p, hp, hf⟩ := hmem2
    by_cases he : p.2.isEmpty
    · simp [he] at hf
    · simp only [if_neg he, Option.some.injEq] at hf
      refine ⟨p, hp, ?_⟩
      have : p.1 = b2 := congrArg Prod.fst hf
      simpa [this] using hfst

/-- Witness for C2: the branch `dev` is absent from `wRepo`'s collection
and from its `branch_stats`. -/
theorem branch_presence_witness :
    "dev" ∉ ((create_summary_stats
      (get_all_commits_from_date wRepo 19999)).branch_stats).map Prod.fst :=
  (branch_presence wRepo 19999).2 "dev" (by decide)

/-- Characterization of a `branch_stats` entry: it comes from a non-empty
commit list of the collection, and every field is the corresponding
aggregate of that list. -/
theorem mem_branch_stats {ac : List (String × List Commit)} {b : String}
    {st : BranchStat}
    (h : (b, st) ∈ (create_summary_stats ac).branch_stats) :
    ∃ cs, (b, cs) ∈ ac ∧ cs ≠ [] ∧
      st = { commit_count := cs.length
             unique_authors := (cs.map Commit.authorName).dedup.length
             authors := (cs.map Commit.authorName).dedup
             latest_commit := (cs.headD defaultCommit).authoredDate
             oldest_commit := (cs.getLastD defaultCommit).authoredDate } := by
  simp only [create_summary_stats] at h
  rw [List.mem_filterMap] at h
  obtain ⟨p, hp, hf⟩ := h
  by_cases he : p.2.isEmpty
  · simp [he] at hf
  · simp only [if_neg he, Option.some.injEq] at hf
    refine ⟨p.2, ?_, by simpa [List.isEmpty_iff] using he, ?_⟩
    · have hb : p.1 = b := congrArg Prod.fst hf
      rw [← hb]
      exact hp
    · exact (congrArg Prod.snd hf).symm

/-- C5: `unique_authors` for a branch is the number of distinct author
names among exactly that branch's listed commits, and `authors` lists
exactly those distinct names (without repetition, order unspecified). -/
theorem unique_authors_exact (ac : List (String × List Commit)) (b : String)
    (st : BranchStat)
    (h : (b, st) ∈ (create_summary_stats ac).branch_stats) :
    ∃ cs, (b, cs) ∈ ac ∧
      st.unique_authors = (cs.map Commit.authorName).toFinset.card ∧
      st.authors.toFinset = (cs.map Commit.authorName).toFinset ∧
      st.authors.Nodup := by
  obtain ⟨cs, hcs, -, hst⟩ := mem_branch_stats h
  refine ⟨cs, hcs, ?_, ?_, ?_⟩
  · rw [hst, List.card_toFinset]
  · rw [hst]
    exact List.toFinset.ext fun x => List.mem_dedup
  · rw [hst]
    exact List.nodup_dedup _

/-- Witness for C5 on the singleton collection of `wRepo`'s branch. -/
theorem unique_authors_exact_witness :
    ∃ cs, ("main", cs) ∈ [("main", [wCommit])] ∧
      wStat.unique_authors = (cs.map Commit.authorName).toFinset.card ∧
      wStat.authors.toFinset = (cs.map Commit.authorName).toFinset ∧
      wStat.authors.Nodup :=
  unique_authors_exact [("main", [wCommit])] "main" wStat (by decide)

/-- In a newest-first list, the head has the maximal authored date. -/
theorem sorted_headD_max {l : List Commit}
    (hs : l.Pairwise (fun c1 c2 => c2.authoredDate ≤ c1.authoredDate)) :
    ∀ c ∈ l, c.authoredDate ≤ (l.headD defaultCommit).authoredDate := by
  intro c hc
  cases l with
  | nil => cases hc
  | cons x t =>
    rcases List.mem_cons.mp hc with rfl | hct
    · exact le_refl _
    · exact (List.pairwise_cons.mp hs).1 c hct

/-- A nonempty list's `getLastD` is a member, whatever the default. -/
theorem getLastD_mem {l : List Commit} (h : l ≠ []) (d0 : Commit) :
    l.getLastD d0 ∈ l := by
  induction l generalizing d0 with
  | nil => exact absurd rfl h
  | cons x t ih =>
    rw [List.getLastD_cons]
    cases ht : t with
    | nil => simp
    | cons y t' =>
      rw [← ht]
      exact List.mem_cons_of_mem x (ih (by simp [ht]) x)

/-- In a newest-first list, the last element has the minimal authored
date. -/
theorem sorted_getLastD_min :
    ∀ (l : List Commit),
      l.Pairwise (fun c1 c2 => c2.authoredDate ≤ c1.authoredDate) →
      ∀ (d0 : Commit), ∀ c ∈ l, (l.getLastD d0).authoredDate ≤ c.authoredDate := by
  intro l
  induction l with
  | nil => intro _ d0 c hc; cases hc
  | cons x t ih =>
    intro hs d0 c hc
    rw [List.getLastD_cons]
    have hps := List.pairwise_cons.mp hs
    rcases List.mem_cons.mp hc with rfl | hct
    · cases ht : t with
      | nil => simp [ht]
      | cons y t' =>
        rw [← ht]
        exact hps.1 _ (getLastD_mem (by simp [ht]) c)
    · exact ih hps.2 x c hct

/-- C7: `latest_commit` is the authored date of the first listed commit of
the branch and `oldest_commit` that of the last; when the list is ordered
newest first these are the maximum and minimum authored dates. -/
theorem latest_oldest_fields (ac : List (String × List Commit)) (b : String)
    (st : BranchStat)
    (h : (b, st) ∈ (create_summary_stats ac).branch_stats) :
    ∃ cs, (b, cs) ∈ ac ∧ cs ≠ [] ∧
      st.latest_commit = (cs.headD defaultCommit).authoredDate ∧
      st.oldest_commit = (cs.getLastD defaultCommit).authoredDate ∧
      (cs.Pairwise (fun c1 c2 => c2.authoredDate ≤ c1.authoredDate) →
        ∀ c ∈ cs, c.authoredDate ≤ st.latest_commit ∧
          st.oldest_commit ≤ c.authoredDate) := by
  obtain ⟨cs, hcs, hne, hst⟩ := mem_branch_stats h
  refine ⟨cs, hcs, hne, by rw [hst], by rw [hst], ?_⟩
  intro hsorted c hc
  rw [hst]
  exact ⟨sorted_headD_max hsorted c hc, sorted_getLastD_min cs hsorted _ c hc⟩

/-- Witness for C7 on the singleton collection of `wRepo`'s branch. -/
theorem latest_oldest_fields_witness :
    ∃ cs, ("main", cs) ∈ [("main", [wCommit])] ∧ cs ≠ [] ∧
      wStat.latest_commit = (cs.headD defaultCommit).authoredDate ∧
      wStat.oldest_commit = (cs.getLastD defaultCommit).authoredDate ∧
      (cs.Pairwise (fun c1 c2 => c2.authoredDate ≤ c1.authoredDate) →
        ∀ c ∈ cs, c.authoredDate ≤ wStat.latest_commit ∧
          wStat.oldest_commit ≤ c.authoredDate) :=
  latest_oldest_fields [("main", [wCommit])] "main" wStat (by decide)

/-- `addRef` only ever appends to the branch list. -/
theorem addRef_extend (acc : List String) (r : Remote) (refName : String) :
    ∃ t, addRef acc r refName = acc ++ t := by
  unfold addRef
  by_cases h : displayName r refName ∈ acc
  · exact ⟨[], by simp [h]⟩
  · exact ⟨[displayName r refName], by simp [h]⟩

/-- Folding one remote's refs only ever appends to the branch list. -/
theorem refs_fold_extend (r : Remote) (refs : List String) (acc : List String) :
    ∃ t, refs.foldl (fun a x => addRef a r x) acc = acc ++ t := by
  induction refs generalizing acc with
  | nil => exact ⟨[], by simp⟩
  | cons x xs ih =>
    obtain ⟨t1, h1⟩ := addRef_extend acc r x
    obtain ⟨t2, h2⟩ := ih (addRef acc r x)
    exact ⟨t1 ++ t2, by rw [List.foldl_cons, h2, h1, List.append_assoc]⟩

/-- Folding all remotes only ever appends to the branch list. -/
theorem remotes_fold_extend (rs : List Remote) (acc : List String) :
    ∃ t, rs.foldl addRemote acc = acc ++ t := by
  induction rs generalizing acc with
  | nil => exact ⟨[], by simp⟩
  | cons r rs' ih =>
    obtain ⟨t1, h1⟩ := refs_fold_extend r r.refs acc
    obtain ⟨t2, h2⟩ := ih (addRemote acc r)
    refine ⟨t1 ++ t2, ?_⟩
    rw [List.foldl_cons, h2, show addRemote acc r = acc ++ t1 from h1,
      List.append_assoc]

/-- The display name of a processed ref is present after folding that
remote's refs. -/
theorem displayName_mem_refs_fold (r : Remote) (refs : List String)
    (acc : List String) {refName : String} (h : refName ∈ refs) :
    displayName r refName ∈ refs.foldl (fun a x => addRef a r x) acc := by
  induction refs generalizing acc with
  | nil => cases h
  | cons x xs ih =>
    rw [List.foldl_cons]
    rcases List.mem_cons.mp h with rfl | hxs
    · have hmem : displayName r refName ∈ addRef acc r refName := by
        unfold addRef
        by_cases hin : displayName r refName ∈ acc
        · simp [hin]
        · simp [hin]
      obtain ⟨t, ht⟩ := refs_fold_extend r xs (addRef acc r refName)
      rw [ht]
      exact List.mem_append_left _ hmem
    · exact ih (addRef acc r x) hxs

/-- C3 (membership direction): every remote ref contributes its
`<remote>/<branch>` display name to the final branch list. -/
theorem displayName_mem_collect (repo : Repo) {r : Remote}
    (hr : r ∈ repo.remotes) {refName : String} (href : refName ∈ r.refs) :
    displayName r refName ∈ collectBranchNames repo := by
  unfold collectBranchNames
  generalize repo.localBranches.map LocalBranch.name = init
  revert hr
  generalize repo.remotes = rs
  intro hr
  induction rs generalizing init with
  | nil => cases hr
  | cons r0 rs ih =>
    rw [List.foldl_cons]
    rcases List.mem_cons.mp hr with rfl | hrs
    · have hmem : displayName r refName ∈ addRemote init r :=
        displayName_mem_refs_fold r r.refs init href
      obtain ⟨t, ht⟩ := remotes_fold_extend rs (addRemote init r)
      rw [ht]
      exact List.mem_append_left _ hmem
    · exact ih (addRemote init r0) hrs

/-- One `addRef` step never pushes an occurrence count above
`max (count before) 1`. -/
theorem count_addRef (acc : List String) (r : Remote) (refName x : String) :
    (addRef acc r refName).count x ≤ max (acc.count x) 1 := by
  unfold addRef
  by_cases h : displayName r refName ∈ acc
  · simp only [if_pos h]
    exact le_max_left _ _
  · simp only [if_neg h, List.count_append]
    by_cases hx : x = displayName r refName
    · subst hx
      have h0 : List.count (displayName r refName) acc = 0 :=
        List.count_eq_zero.mpr h
      simp [h0]
    · have h1 : List.count x [displayName r refName] = 0 := by
        simp [List.count_singleton', hx]
      rw [h1]
      simp

/-- Folding refs never pushes an occurrence count above
`max (count before) 1`. -/
theorem count_refs_fold (r : Remote) (refs : List String) (acc : List String)
    (x : String) :
    (refs.foldl (fun a y => addRef a r y) acc).count x ≤ max (acc.count x) 1 := by
  induction refs generalizing acc with
  | nil => simp
  | cons y ys ih =>
    rw [List.foldl_cons]
    calc (ys.foldl (fun a z => addRef a r z) (addRef acc r y)).count x
        ≤ max ((addRef acc r y).count x) 1 := ih (addRef acc r y)
      _ ≤ max (max (acc.count x) 1) 1 :=
          max_le_max (count_addRef acc r y x) le_rfl
      _ = max (acc.count x) 1 := by rw [max_assoc, max_self]

/-- Folding all remotes never pushes an occurrence count above
`max (count before) 1`. -/
theorem count_remotes_fold (rs : List Remote) (acc : List String) (x : String) :
    (rs.foldl addRemote acc).count x ≤ max (acc.count x) 1 := by
  induction rs generalizing acc with
  | nil => simp
  | cons r rs' ih =>
    rw [List.foldl_cons]
    calc (rs'.foldl addRemote (addRemote acc r)).count x
        ≤ max ((addRemote acc r).count x) 1 := ih (addRemote acc r)
      _ ≤ max (max (acc.count x) 1) 1 :=
          max_le_max (count_refs_fold r r.refs acc x) le_rfl
      _ = max (acc.count x) 1 := by rw [max_assoc, max_self]

/-- Provenance through one remote's refs: any name in the folded list was
already there or is the display name of one of the refs. -/
theorem mem_refs_fold_cases (r : Remote) (refs : List String)
    (acc : List String) {x : String}
    (h : x ∈ refs.foldl (fun a y => addRef a r y) acc) :
    x ∈ acc ∨ ∃ refName ∈ refs, x = displayName r refName := by
  induction refs generalizing acc with
  | nil => exact Or.inl h
  | cons y ys ih =>
    rw [List.foldl_cons] at h
    rcases ih (addRef acc r y) h with hmem | ⟨z, hz, hx⟩
    · unfold addRef at hmem
      by_cases hin : displayName r y ∈ acc
      · rw [if_pos hin] at hmem
        exact Or.inl hmem
      · rw [if_neg hin] at hmem
        rcases List.mem_append.mp hmem with h' | h'
        · exact Or.inl h'
        · exact Or.inr ⟨y, List.mem_cons_self y ys, List.mem_singleton.mp h'⟩
    · exact Or.inr ⟨z, List.mem_cons_of_mem y hz, hx⟩

/-- Provenance through all remotes. -/
theorem mem_remotes_fold_cases (rs : List Remote) (acc : List String)
    {x : String} (h : x ∈ rs.foldl addRemote acc) :
    x ∈ acc ∨ ∃ r ∈ rs, ∃ refName ∈ r.refs, x = displayName r refName := by
  induction rs generalizing acc with
  | nil => exact Or.inl h
  | cons r rs' ih =>
    rw [List.foldl_cons] at h
    rcases ih (addRemote acc r) h with hmem | ⟨r', hr', z, hz, hx⟩
    · rcases mem_refs_fold_cases r r.refs acc hmem with h' | ⟨z, hz, hx⟩
      · exact Or.inl h'
      · exact Or.inr ⟨r, List.mem_cons_self r rs', z, hz, hx⟩
    · exact Or.inr ⟨r', List.mem_cons_of_mem r hr', z, hz, hx⟩

/-- C3: local branches come first under their own names; every remote ref
contributes its `<remote>/<branch>` display name; a name is added at most
once beyond its local occurrences (exact duplicates are skipped); and every
entry of the list is a local branch name or such a display name. -/
theorem remote_branch_naming (repo : Repo) :
    (∃ rest, collectBranchNames repo =
      repo.localBranches.map LocalBranch.name ++ rest) ∧
    (∀ r ∈ repo.remotes, ∀ refName ∈ r.refs,
      displayName r refName ∈ collectBranchNames repo) ∧
    (∀ x : String, (collectBranchNames repo).count x ≤
      max ((repo.localBranches.map LocalBranch.name).count x) 1) ∧
    (∀ x ∈ collectBranchNames repo,
      x ∈ repo.localBranches.map LocalBranch.name ∨
      ∃ r ∈ repo.remotes, ∃ refName ∈ r.refs, x = displayName r refName) := by
  refine ⟨?_, ?_, ?_, ?_⟩
  · exact remotes_fold_extend repo.remotes _
  · intro r hr refName href
    exact displayName_mem_collect repo hr href
  · intro x
    exact count_remotes_fold repo.remotes _ x
  · intro x hx
    exact mem_remotes_fold_cases repo.remotes _ hx

/-- Witness for C3 on `w3Repo`: the remote ref `origin/dev` is listed
under the display name `origin/dev`. -/
theorem remote_branch_naming_witness :
    displayName { name := "origin", refs := ["origin/dev", "origin/main"] }
      "origin/dev" ∈ collectBranchNames w3Repo :=
  (remote_branch_naming w3Repo).2.1
    { name := "origin", refs := ["origin/dev", "origin/main"] } (by decide)
    "origin/dev" (by decide)

/-- `commitNodes` unfolded. -/
theorem commitNodes_eq (g : NGraph) :
    commitNodes g =
      (g.nodes.filter (fun p => p.2 = some NodeType.commit)).map Prod.fst := rfl

/-- Creating an attribute-less endpoint never adds a commit node. -/
theorem commitNodes_ensureNode (g : NGraph) (k : String) :
    commitNodes (ensureNode g k) = commitNodes g := by
  unfold ensureNode
  split
  · rfl
  · rw [commitNodes_eq, commitNodes_eq]
    simp

/-- `add_edge` does not change the node list beyond ensuring endpoints. -/
theorem nodes_addEdge (g : NGraph) (a b : String) :
    (addEdge g a b).nodes = (ensureNode (ensureNode g a) b).nodes := by
  by_cases h : (a, b) ∈ (ensureNode (ensureNode g a) b).edges
  · simp [addEdge, h]
  · simp [addEdge, h]

/-- `add_edge` never changes the commit nodes. -/
theorem commitNodes_addEdge (g : NGraph) (a b : String) :
    commitNodes (addEdge g a b) = commitNodes g := by
  rw [commitNodes_eq, nodes_addEdge, ← commitNodes_eq, commitNodes_ensureNode,
    commitNodes_ensureNode]

/-- Adding (or re-typing) a commit node grows the commit-node count by at
most one. -/
theorem filter_setNodeType_commit_le (l : List (String × Option NodeType))
    (k : String) :
    ((setNodeType l k NodeType.commit).filter
      (fun p => p.2 = some NodeType.commit)).length ≤
      (l.filter (fun p => p.2 = some NodeType.commit)).length + 1 := by
  induction l with
  | nil => simp [setNodeType]
  | cons q rest ih =>
    obtain ⟨k', t'⟩ := q
    by_cases hk : k' = k
    · simp only [setNodeType, if_pos hk]
      by_cases ht : t' = some NodeType.commit <;>
        simp [List.filter_cons, ht]
    · simp only [setNodeType, if_neg hk]
      by_cases ht : t' = some NodeType.commit
      · simp only [List.filter_cons, ht]
        simp
        omega
      · simp only [List.filter_cons, ht]
        simp [ht]
        omega

/-- Adding (or re-typing) a branch node never grows the commit-node
count. -/
theorem filter_setNodeType_branch_le (l : List (String × Option NodeType))
    (k : String) :
    ((setNodeType l k NodeType.branch).filter
      (fun p => p.2 = some NodeType.commit)).length ≤
      (l.filter (fun p => p.2 = some NodeType.commit)).length := by
  induction l with
  | nil => simp [setNodeType]
  | cons q rest ih =>
    obtain ⟨k', t'⟩ := q
    by_cases hk : k' = k
    · simp only [setNodeType, if_pos hk]
      by_cases ht : t' = some NodeType.commit
      · simp [List.filter_cons, ht]
      · simp [List.filter_cons, ht]
    · simp only [setNodeType, if_neg hk]
      by_cases ht : t' = some NodeType.commit
      · simp [List.filter_cons, ht]
        omega
      · simp [List.filter_cons, ht]
        omega

/-- Commit-node count bound for one `add_node(..., node_type='commit')`. -/
theorem commitNodes_addNode_commit_le (g : NGraph) (k : String) :
    (commitNodes (addNode g k NodeType.commit)).length ≤
      (commitNodes g).length + 1 := by
  rw [commitNodes_eq, commitNodes_eq]
  simpa using filter_setNodeType_commit_le g.nodes k

/-- Commit-node count bound for one `add_node(..., node_type='branch')`. -/
theorem commitNodes_addNode_branch_le (g : NGraph) (k : String) :
    (commitNodes (addNode g k NodeType.branch)).length ≤
      (commitNodes g).length := by
  rw [commitNodes_eq, commitNodes_eq]
  simpa using filter_setNodeType_branch_le g.nodes k

/-- The inner commit loop adds at most one commit node per processed
commit. -/
theorem commitNodes_commit_fold_le (b : String) (l : List Commit) (g : NGraph) :
    (commitNodes (l.foldl
      (fun g c =>
        addEdge (addNode g (c.hexsha.take 8) NodeType.commit) b
          (c.hexsha.take 8)) g)).length ≤
      (commitNodes g).length + l.length := by
  induction l generalizing g with
  | nil => simp
  | cons c cl ih =>
    rw [List.foldl_cons]
    calc (commitNodes (cl.foldl _
          (addEdge (addNode g (c.hexsha.take 8) NodeType.commit) b
            (c.hexsha.take 8)))).length
        ≤ (commitNodes (addEdge (addNode g (c.hexsha.take 8) NodeType.commit)
            b (c.hexsha.take 8))).length + cl.length := ih _
      _ = (commitNodes (addNode g (c.hexsha.take 8)
            NodeType.commit)).length + cl.length := by rw [commitNodes_addEdge]
      _ ≤ (commitNodes g).length + 1 + cl.length :=
          Nat.add_le_add_right (commitNodes_addNode_commit_le g _) _
      _ ≤ (commitNodes g).length + (c :: cl).length := by
          simp only [List.length_cons]
          omega

/-- One branch entry adds at most as many commit nodes as it has capped
commits. -/
theorem commitNodes_addBranchEntry_le (g : NGraph) (b : String)
    (cs : List Commit) :
    (commitNodes (addBranchEntry g b cs)).length ≤
      (commitNodes g).length + (cs.take 10).length := by
  unfold addBranchEntry
  calc (commitNodes ((cs.take 10).foldl _ (addNode g b NodeType.branch))).length
      ≤ (commitNodes (addNode g b NodeType.branch)).length +
          (cs.take 10).length := commitNodes_commit_fold_le b _ _
    _ ≤ (commitNodes g).length + (cs.take 10).length :=
        Nat.add_le_add_right (commitNodes_addNode_branch_le g b) _

/-- C6: the number of commit nodes in the network graph never exceeds 10
times the number of branches: each branch contributes at most its first 10
commits, each of which becomes at most one commit node. -/
theorem network_commit_node_cap (ac : List (String × List Commit)) :
    (commitNodes (create_commit_network_graph ac)).length ≤ 10 * ac.length := by
  have key : ∀ (l : List (String × List Commit)) (g : NGraph),
      (commitNodes (l.foldl (fun g p => addBranchEntry g p.1 p.2) g)).length ≤
        (commitNodes g).length + 10 * l.length := by
    intro l
    induction l with
    | nil => intro g; simp
    | cons p pl ih =>
      intro g
      rw [List.foldl_cons]
      have h10 : (p.2.take 10).length ≤ 10 := List.length_take_le 10 p.2
      calc (commitNodes (pl.foldl _ (addBranchEntry g p.1 p.2))).length
          ≤ (commitNodes (addBranchEntry g p.1 p.2)).length + 10 * pl.length :=
            ih _
        _ ≤ (commitNodes g).length + (p.2.take 10).length + 10 * pl.length :=
            Nat.add_le_add_right (commitNodes_addBranchEntry_le g p.1 p.2) _
        _ ≤ (commitNodes g).length + 10 * (p :: pl).length := by
            simp [List.length_cons]; omega
  have h := key ac emptyGraph
  simpa [emptyGraph, commitNodes] using h

/-- Keys after `add_node`: unchanged for an existing key, else appended. -/
theorem keys_setNodeType (l : List (String × Option NodeType)) (k : String)
    (t : NodeType) :
    (setNodeType l k t).map Prod.fst =
      if k ∈ l.map Prod.fst then l.map Prod.fst
      else l.map Prod.fst ++ [k] := by
  induction l with
  | nil => simp [setNodeType]
  | cons q rest ih =>
    obtain ⟨k', t'⟩ := q
    by_cases hk : k' = k
    · subst hk
      simp [setNodeType]
    · have hk' : ¬k = k' := fun h => hk h.symm
      simp only [setNodeType, if_neg hk, List.map_cons, ih]
      by_cases hm : k ∈ rest.map Prod.fst
      · simp [hm, hk', List.mem_cons]
      · simp [hm, hk', List.mem_cons]

/-- `add_node` keeps node keys duplicate-free. -/
theorem keys_nodup_addNode (g : NGraph) (k : String) (t : NodeType)
    (h : (g.nodes.map Prod.fst).Nodup) :
    ((addNode g k t).nodes.map Prod.fst).Nodup := by
  show ((setNodeType g.nodes k t).map Prod.fst).Nodup
  rw [keys_setNodeType]
  by_cases hm : k ∈ g.nodes.map Prod.fst
  · simpa [hm] using h
  · simp [hm, List.nodup_append, h]

/-- `add_edge`'s endpoint creation keeps node keys duplicate-free. -/
theorem keys_nodup_ensureNode (g : NGraph) (k : String)
    (h : (g.nodes.map Prod.fst).Nodup) :
    ((ensureNode g k).nodes.map Prod.fst).Nodup := by
  unfold ensureNode
  split
  · exact h
  · rename_i hany
    have hk : k ∉ g.nodes.map Prod.fst := by
      intro hmem
      apply hany
      rw [List.any_eq_true]
      obtain ⟨p, hp, hpk⟩ := List.mem_map.mp hmem
      exact ⟨p, hp, by simp [hpk]⟩
    simp [List.nodup_append, h, hk]

/-- `add_edge` keeps node keys duplicate-free. -/
theorem keys_nodup_addEdge (g : NGraph) (a b : String)
    (h : (g.nodes.map Prod.fst).Nodup) :
    ((addEdge g a b).nodes.map Prod.fst).Nodup := by
  rw [nodes_addEdge]
  exact keys_nodup_ensureNode _ _ (keys_nodup_ensureNode _ _ h)

/-- When node keys are duplicate-free, so is the commit-node list. -/
theorem commitNodes_nodup {g : NGraph}
    (h : (g.nodes.map Prod.fst).Nodup) : (commitNodes g).Nodup := by
  rw [commitNodes_eq]
  exact List.Nodup.sublist
    (List.Sublist.map Prod.fst (List.filter_sublist g.nodes)) h

/-- `add_node(..., node_type='commit')` on the commit-node set: union with
the new key. -/
theorem toFinset_filter_setNodeType_commit
    (l : List (String × Option NodeType)) (k : String) :
    (((setNodeType l k NodeType.commit).filter
        (fun p => p.2 = some NodeType.commit)).map Prod.fst).toFinset =
      insert k
        ((l.filter (fun p => p.2 = some NodeType.commit)).map
          Prod.fst).toFinset := by
  induction l with
  | nil => simp [setNodeType]
  | cons q rest ih =>
    obtain ⟨k', t'⟩ := q
    by_cases hk : k' = k
    · subst hk
      by_cases ht : t' = some NodeType.commit
      · simp [setNodeType, List.filter_cons, ht]
      · simp [setNodeType, List.filter_cons, ht]
    · by_cases ht : t' = some NodeType.commit
      · simp only [setNodeType, if_neg hk, List.filter_cons, ht]
        simp only [decide_eq_true_eq]
        simp [ih, Finset.Insert.comm k' k]
      · simp only [setNodeType, if_neg hk, List.filter_cons, ht]
        simp [ht, ih]

/-- Same statement lifted to graphs. -/
theorem toFinset_commitNodes_addNode_commit (g : NGraph) (k : String) :
    (commitNodes (addNode g k NodeType.commit)).toFinset =
      insert k (commitNodes g).toFinset := by
  rw [commitNodes_eq, commitNodes_eq]
  exact toFinset_filter_setNodeType_commit g.nodes k

/-- Re-typing a key that is not currently a commit node to `'branch'`
leaves the commit-node list unchanged. -/
theorem filter_setNodeType_branch_of_not_mem
    (l : List (String × Option NodeType)) (k : String)
    (h : k ∉ (l.filter (fun p => p.2 = some NodeType.commit)).map Prod.fst) :
    ((setNodeType l k NodeType.branch).filter
        (fun p => p.2 = some NodeType.commit)).map Prod.fst =
      (l.filter (fun p => p.2 = some NodeType.commit)).map Prod.fst := by
  induction l with
  | nil => simp [setNodeType]
  | cons q rest ih =>
    obtain ⟨k', t'⟩ := q
    by_cases hk : k' = k
    · subst hk
      by_cases ht : t' = some NodeType.commit
      · exact absurd (by simp [List.filter_cons, ht]) h
      · simp [setNodeType, List.filter_cons, ht]
    · by_cases ht : t' = some NodeType.commit
      · have h' : k ∉ (rest.filter
            (fun p => p.2 = some NodeType.commit)).map Prod.fst := by
          intro hc
          exact h (by simp [List.filter_cons, ht, hc])
        simp [setNodeType, hk, List.filter_cons, ht, ih h']
      · have h' : k ∉ (rest.filter
            (fun p => p.2 = some NodeType.commit)).map Prod.fst := by
          intro hc
          exact h (by simp [List.filter_cons, ht, hc])
        simp [setNodeType, hk, List.filter_cons, ht, ih h']

/-- Same statement lifted to graphs. -/
theorem commitNodes_addNode_branch_of_not_mem {g : NGraph} {k : String}
    (h : k ∉ commitNodes g) :
    commitNodes (addNode g k NodeType.branch) = commitNodes g := by
  rw [commitNodes_eq] at h ⊢
  rw [commitNodes_eq]
  exact filter_setNodeType_branch_of_not_mem g.nodes k h

/-- `add_node` never touches the edge list. -/
theorem edges_addNode (g : NGraph) (k : String) (t : NodeType) :
    (addNode g k t).edges = g.edges := rfl

/-- Endpoint creation never touches the edge list. -/
theorem edges_ensureNode (g : NGraph) (k : String) :
    (ensureNode g k).edges = g.edges := by
  unfold ensureNode
  split <;> rfl

/-- `add_edge` appends the edge exactly when it is not already present. -/
theorem edges_addEdge (g : NGraph) (a b : String) :
    (addEdge g a b).edges =
      if (a, b) ∈ g.edges then g.edges else g.edges ++ [(a, b)] := by
  unfold addEdge
  simp only [edges_ensureNode]
  split <;> simp [edges_ensureNode]

/-- The added edge is present afterwards. -/
theorem mem_edges_addEdge (g : NGraph) (a b : String) :
    (a, b) ∈ (addEdge g a b).edges := by
  rw [edges_addEdge]
  split
  · rename_i h; exact h
  · exact List.mem_append_right _ (List.mem_singleton.mpr rfl)

/-- Existing edges survive `add_edge`. -/
theorem edges_subset_addEdge (g : NGraph) (a b : String) :
    ∀ e ∈ g.edges, e ∈ (addEdge g a b).edges := by
  intro e he
  rw [edges_addEdge]
  split
  · exact he
  · exact List.mem_append_left _ he

/-- `add_edge` keeps the edge list duplicate-free (`DiGraph` has no
parallel edges). -/
theorem edges_nodup_addEdge (g : NGraph) (a b : String)
    (h : g.edges.Nodup) : (addEdge g a b).edges.Nodup := by
  rw [edges_addEdge]
  split
  · exact h
  · rename_i hmem
    simp [List.nodup_append, h, hmem]

set_option maxHeartbeats 1000000 in
/-- Invariant of the inner commit loop: node keys stay duplicate-free, the
commit-node set grows by exactly the processed hash keys, commit nodes stay
inside `CK`, old edges survive, each processed commit gets its edge, and
the edge list stays duplicate-free. -/
theorem commit_fold_inv (CK : List String) (b : String) :
    ∀ l : List Commit, (∀ c ∈ l, c.hexsha.take 8 ∈ CK) →
    ∀ g g' : NGraph,
      g' = l.foldl (fun g c =>
        addEdge (addNode g (c.hexsha.take 8) NodeType.commit) b
          (c.hexsha.take 8)) g →
      (g.nodes.map Prod.fst).Nodup →
      (∀ x ∈ commitNodes g, x ∈ CK) →
      ((g'.nodes.map Prod.fst).Nodup ∧
       (commitNodes g').toFinset =
         (commitNodes g).toFinset ∪
           (l.map (fun c => c.hexsha.take 8)).toFinset ∧
       (∀ x ∈ commitNodes g', x ∈ CK) ∧
       (∀ e ∈ g.edges, e ∈ g'.edges) ∧
       (∀ c ∈ l, (b, c.hexsha.take 8) ∈ g'.edges) ∧
       (g.edges.Nodup → g'.edges.Nodup)) := by
  intro l
  induction l with
  | nil =>
    intro _ g g' hg' hk hsub
    subst hg'
    exact ⟨hk, by simp, hsub, fun e he => he, by simp, fun h => h⟩
  | cons c cl ih =>
    intro hl g g' hg' hk hsub
    subst hg'
    simp only [List.foldl_cons, List.map_cons]
    have hlc : c.hexsha.take 8 ∈ CK := hl c (List.mem_cons_self c cl)
    have hltail : ∀ c' ∈ cl, c'.hexsha.take 8 ∈ CK :=
      fun c' hc' => hl c' (List.mem_cons_of_mem c hc')
    clear hl
    revert hlc
    generalize hkey : c.hexsha.take 8 = key
    intro hlc
    have hk1 : ((addEdge (addNode g key NodeType.commit) b
        key).nodes.map Prod.fst).Nodup :=
      keys_nodup_addEdge _ _ _ (keys_nodup_addNode g _ _ hk)
    have hcn1 : (commitNodes (addEdge (addNode g key NodeType.commit) b
          key)).toFinset = insert key (commitNodes g).toFinset := by
      rw [commitNodes_addEdge, toFinset_commitNodes_addNode_commit]
    have hsub1 : ∀ x ∈ commitNodes (addEdge (addNode g key NodeType.commit)
        b key), x ∈ CK := by
      intro x hx
      have hx' := List.mem_toFinset.mpr hx
      rw [hcn1] at hx'
      rcases Finset.mem_insert.mp hx' with h | hxg
      · rw [h]; exact hlc
      · exact hsub x (List.mem_toFinset.mp hxg)
    have hedges1 : ∀ e ∈ g.edges,
        e ∈ (addEdge (addNode g key NodeType.commit) b key).edges :=
      fun e he =>
        edges_subset_addEdge _ _ _ e (by rw [edges_addNode]; exact he)
    have hmem1 : (b, key) ∈
        (addEdge (addNode g key NodeType.commit) b key).edges :=
      mem_edges_addEdge _ _ _
    have hnd1 : g.edges.Nodup →
        (addEdge (addNode g key NodeType.commit) b key).edges.Nodup :=
      fun h => edges_nodup_addEdge _ _ _ (by rw [edges_addNode]; exact h)
    obtain ⟨ik, ifin, isub, imono, iedge, ind⟩ :=
      ih hltail (addEdge (addNode g key NodeType.commit) b key) _ rfl hk1 hsub1
    refine ⟨ik, ?_, isub, fun e he => imono e (hedges1 e he), ?_,
      fun h => ind (hnd1 h)⟩
    · rw [ifin, hcn1, List.toFinset_cons, Finset.insert_union,
        Finset.union_insert]
    · intro c' hc'
      rcases List.mem_cons.mp hc' with h | hcl
      · rw [h, hkey]
        exact imono _ hmem1
      · exact iedge c' hcl

/-- Invariant of one branch entry: with the branch name outside `CK`, the
branch-node add cannot delete a commit node, and the commit loop adds
exactly the entry's capped hash keys. -/
theorem addBranchEntry_inv (CK : List String) (b : String) (cs : List Commit)
    (hl : ∀ c ∈ cs.take 10, c.hexsha.take 8 ∈ CK) (hb : b ∉ CK)
    (g : NGraph) (hk : (g.nodes.map Prod.fst).Nodup)
    (hsub : ∀ x ∈ commitNodes g, x ∈ CK) :
    (((addBranchEntry g b cs).nodes.map Prod.fst).Nodup) ∧
    (commitNodes (addBranchEntry g b cs)).toFinset =
      (commitNodes g).toFinset ∪
        ((cs.take 10).map (fun c => c.hexsha.take 8)).toFinset ∧
    (∀ x ∈ commitNodes (addBranchEntry g b cs), x ∈ CK) ∧
    (∀ e ∈ g.edges, e ∈ (addBranchEntry g b cs).edges) ∧
    (∀ c ∈ cs.take 10,
      (b, c.hexsha.take 8) ∈ (addBranchEntry g b cs).edges) ∧
    (g.edges.Nodup → (addBranchEntry g b cs).edges.Nodup) := by
  have hbn : b ∉ commitNodes g := fun hmem => hb (hsub b hmem)
  have hcn0 : commitNodes (addNode g b NodeType.branch) = commitNodes g :=
    commitNodes_addNode_branch_of_not_mem hbn
  have hk0 : ((addNode g b NodeType.branch).nodes.map Prod.fst).Nodup :=
    keys_nodup_addNode g b _ hk
  have hsub0 : ∀ x ∈ commitNodes (addNode g b NodeType.branch), x ∈ CK := by
    rw [hcn0]; exact hsub
  obtain ⟨ik, ifin, isub, imono, iedge, ind⟩ :=
    commit_fold_inv CK b (cs.take 10) hl (addNode g b NodeType.branch) _ rfl
      hk0 hsub0
  rw [hcn0] at ifin
  exact ⟨ik, ifin, isub, imono, iedge, ind⟩

/-- Invariant of the whole branch fold. -/
theorem network_fold_inv (CK : List String) :
    ∀ l : List (String × List Commit),
      (∀ p ∈ l, ∀ c ∈ p.2.take 10, c.hexsha.take 8 ∈ CK) →
      (∀ p ∈ l, p.1 ∉ CK) →
      ∀ g g' : NGraph,
        g' = l.foldl (fun g p => addBranchEntry g p.1 p.2) g →
        (g.nodes.map Prod.fst).Nodup →
        (∀ x ∈ commitNodes g, x ∈ CK) →
        ((g'.nodes.map Prod.fst).Nodup ∧
         (commitNodes g').toFinset =
           (commitNodes g).toFinset ∪ (cappedHashKeys l).toFinset ∧
         (∀ x ∈ commitNodes g', x ∈ CK) ∧
         (∀ e ∈ g.edges, e ∈ g'.edges) ∧
         (∀ p ∈ l, ∀ c ∈ p.2.take 10, (p.1, c.hexsha.take 8) ∈ g'.edges) ∧
         (g.edges.Nodup → g'.edges.Nodup)) := by
  intro l
  induction l with
  | nil =>
    intro _ _ g g' hg' hk hsub
    subst hg'
    exact ⟨hk, by simp [cappedHashKeys], hsub, fun e he => he, by simp,
      fun h => h⟩
  | cons p pl ih =>
    intro hcap hbn g g' hg' hk hsub
    subst hg'
    rw [List.foldl_cons]
    obtain ⟨ek, efin, esub, emono, eedge, endp⟩ :=
      addBranchEntry_inv CK p.1 p.2 (hcap p (List.mem_cons_self p pl))
        (hbn p (List.mem_cons_self p pl)) g hk hsub
    obtain ⟨ik, ifin, isub, imono, iedge, ind⟩ :=
      ih (fun q hq => hcap q (List.mem_cons_of_mem p hq))
        (fun q hq => hbn q (List.mem_cons_of_mem p hq))
        (addBranchEntry g p.1 p.2) _ rfl ek esub
    refine ⟨ik, ?_, isub, fun e he => imono e (emono e he), ?_,
      fun h => ind (endp h)⟩
    · rw [ifin, efin,
        show cappedHashKeys (p :: pl) =
          ((p.2.take 10).map (fun c => c.hexsha.take 8)) ++
            cappedHashKeys pl from by simp [cappedHashKeys],
        List.toFinset_append, Finset.union_assoc]
    · intro q hq c hc
      rcases List.mem_cons.mp hq with rfl | hql
      · exact imono _ (eedge c hc)
      · exact iedge q hql c hc

/-- C10 as stated is false on `collisionAC`: the branch named `aaaabbbb`
overwrites the `node_type` attribute of the commit node keyed `aaaabbbb`,
so only one commit node remains although the capped commits have two
distinct 8-character hash keys. -/
theorem network_shared_nodes_counterexample :
    ¬ ((commitNodes (create_commit_network_graph collisionAC)).length =
        (cappedHashKeys collisionAC).dedup.length) := by
  decide

/-- C10 (amended): provided no branch name in the collection equals the
8-character hash key of a capped commit, commit nodes are shared: their
count equals the number of distinct 8-character hash keys among the capped
commits, the edge list is duplicate-free, and each branch has an edge to
the node of each of its capped commits. -/
theorem network_shared_nodes (ac : List (String × List Commit))
    (hdisj : ∀ b ∈ ac.map Prod.fst, b ∉ cappedHashKeys ac) :
    (commitNodes (create_commit_network_graph ac)).length =
      (cappedHashKeys ac).dedup.length ∧
    (create_commit_network_graph ac).edges.Nodup ∧
    ∀ p ∈ ac, ∀ c ∈ p.2.take 10,
      (p.1, c.hexsha.take 8) ∈ (create_commit_network_graph ac).edges := by
  have hcap : ∀ p ∈ ac, ∀ c ∈ p.2.take 10,
      c.hexsha.take 8 ∈ cappedHashKeys ac := by
    intro p hp c hc
    unfold cappedHashKeys
    rw [List.mem_flatMap]
    exact ⟨p, hp, List.mem_map_of_mem _ hc⟩
  have hbn : ∀ p ∈ ac, p.1 ∉ cappedHashKeys ac := fun p hp =>
    hdisj p.1 (List.mem_map_of_mem _ hp)
  obtain ⟨ik, ifin, _, _, iedge, ind⟩ :=
    network_fold_inv (cappedHashKeys ac) ac hcap hbn emptyGraph
      (create_commit_network_graph ac) rfl (by simp [emptyGraph])
      (by simp [commitNodes, emptyGraph])
  refine ⟨?_, ind (by simp [emptyGraph]), iedge⟩
  have hnodup : (commitNodes (create_commit_network_graph ac)).Nodup :=
    commitNodes_nodup ik
  have hfin : (commitNodes (create_commit_network_graph ac)).toFinset =
      (cappedHashKeys ac).toFinset := by
    rw [ifin]
    simp [commitNodes, emptyGraph]
  calc (commitNodes (create_commit_network_graph ac)).length
      = (commitNodes (create_commit_network_graph ac)).dedup.length := by
        rw [List.dedup_eq_self.mpr hnodup]
    _ = (commitNodes (create_commit_network_graph ac)).toFinset.card :=
        (List.card_toFinset _).symm
    _ = (cappedHashKeys ac).toFinset.card := by rw [hfin]
    _ = (cappedHashKeys ac).dedup.length := List.card_toFinset _

/-- Witness for the amended C10 on the collision-free collection
`plainAC`. -/
theorem network_shared_nodes_witness :
    (commitNodes (create_commit_network_graph plainAC)).length =
      (cappedHashKeys plainAC).dedup.length ∧
    (create_commit_network_graph plainAC).edges.Nodup ∧
    ∀ p ∈ plainAC, ∀ c ∈ p.2.take 10,
      (p.1, c.hexsha.take 8) ∈ (create_commit_network_graph plainAC).edges :=
  network_shared_nodes plainAC (by decide)

end GitCommitGraph
